import Mathlib

/-!
Verification of the subtitle offset & merge engine of `video-merger.py`.

Python strings are modelled as `List Char`, and the (floating point) time
values of the program are modelled as exact rationals `ℚ`.  Every definition
in the first part of the file is a direct translation of the corresponding
Python function; external effects (the `ffprobe` duration probe, file
reads, `ffmpeg`, `sys.exit`) are passed in as data or summarized in a
result record.
-/

/-- Decimal digit to character, as used by Python's `str` on integers. -/
def digitChar : ℕ → Char
  | 0 => '0' | 1 => '1' | 2 => '2' | 3 => '3' | 4 => '4'
  | 5 => '5' | 6 => '6' | 7 => '7' | 8 => '8' | _ => '9'

/-- Fuel-driven accumulator loop producing the decimal digits of `n`
(most significant first) in front of `acc`. -/
def natToCharsCore : ℕ → ℕ → List Char → List Char
  | 0, _, acc => acc
  | fuel + 1, n, acc =>
    if n = 0 then acc else natToCharsCore fuel (n / 10) (digitChar (n % 10) :: acc)

/-- Decimal representation of a natural number, Python's `str(n)`. -/
def natToChars (n : ℕ) : List Char :=
  if n = 0 then ['0'] else natToCharsCore n n []

/-- Zero-padding to width `w`, Python's `f"{n:0wd}"` for a non-negative `n`. -/
def padNat (n w : ℕ) : List Char :=
  List.replicate (w - (natToChars n).length) '0' ++ natToChars n

/-- Zero-padding to width `w` for an integer, Python's `f"{z:0wd}"`
(the sign, when present, counts towards the width). -/
def padInt (z : ℤ) (w : ℕ) : List Char :=
  if z < 0 then '-' :: padNat z.natAbs (w - 1) else padNat z.toNat w

/-- Numeric value of a digit character. -/
def charVal (c : Char) : ℕ := c.toNat - 48

/-- Value of a big-endian digit string, Python's `int(group)`. -/
def valOfChars (l : List Char) : ℕ :=
  l.foldl (fun a c => a * 10 + charVal c) 0

/-- Greedy `\d+` at the head of the input: the maximal non-empty leading
run of digits together with its value and the rest of the input. -/
def takeDigits (l : List Char) : Option (ℕ × List Char) :=
  let ds := l.takeWhile Char.isDigit
  if ds.isEmpty then none else some (valOfChars ds, l.dropWhile Char.isDigit)

/-- Literal character in a regular expression. -/
def expectChar (c : Char) : List Char → Option (List Char)
  | [] => none
  | x :: rest => if x = c then some rest else none

/-- The anchored match `re.match(r'(\d+):(\d+):(\d+),(\d+)', s)` of
`parse_srt_time` (src/video-merger.py:35): the four captured groups and the
unconsumed tail on success, `none` when the head of the string does not
match. -/
def matchTimestamp (l : List Char) : Option ((ℕ × ℕ × ℕ × ℕ) × List Char) := do
  let (h, r1) ← takeDigits l
  let r2 ← expectChar ':' r1
  let (m, r3) ← takeDigits r2
  let r4 ← expectChar ':' r3
  let (s, r5) ← takeDigits r4
  let r6 ← expectChar ',' r5
  let (ms, r7) ← takeDigits r6
  pure ((h, m, s, ms), r7)

/-- Embedding of `parse_srt_time` (src/video-merger.py:32-39): on a match,
`h * 3600 + m * 60 + s + ms / 1000`; otherwise the literal `return 0`. -/
def parse_srt_time (l : List Char) : ℚ :=
  match matchTimestamp l with
  | some ((h, m, s, ms), _) => (h : ℚ) * 3600 + (m : ℚ) * 60 + (s : ℚ) + (ms : ℚ) / 1000
  | none => 0

/-- Python's `int()` on a number: truncation towards zero. -/
def pyInt (q : ℚ) : ℤ :=
  if 0 ≤ q then ⌊q⌋ else -⌊-q⌋

/-- Python's `q % 1`: the non-negative fractional part. -/
def pyMod1 (q : ℚ) : ℚ := q - ⌊q⌋

/-- Embedding of `format_srt_time` (src/video-merger.py:41-48).  Integer
division and remainder on `ℤ` are Euclidean, which agrees with Python's
`//` and `%` for the positive divisors used here. -/
def format_srt_time (seconds : ℚ) : List Char :=
  let ms : ℤ := pyInt (pyMod1 seconds * 1000)
  let t : ℤ := pyInt seconds
  let h : ℤ := t / 3600
  let m : ℤ := t % 3600 / 60
  let s : ℤ := t % 60
  padInt h 2 ++ ':' :: padInt m 2 ++ ':' :: padInt s 2 ++ ',' :: padInt ms 3

/-- Whitespace for Python's `str.strip()` (the ASCII whitespace characters;
code points 11 and 12 are vertical tab and form feed). -/
def isPySpace (c : Char) : Bool :=
  c == ' ' || c == '\t' || c == '\n' || c == '\r' || c == Char.ofNat 11 || c == Char.ofNat 12

/-- Python's `str.strip()`: drop whitespace from both ends. -/
def stripL (l : List Char) : List Char :=
  ((l.dropWhile isPySpace).reverse.dropWhile isPySpace).reverse

/-- Prepend a character to the first piece of a split result. -/
def consHead (c : Char) : List (List Char) → List (List Char)
  | [] => [[c]]
  | r :: rs => (c :: r) :: rs

/-- Python's `s.split('\n')`. -/
def splitLines : List Char → List (List Char)
  | [] => [[]]
  | c :: rest => if c = '\n' then [] :: splitLines rest else consHead c (splitLines rest)

/-- Python's `s.split('\n\n')` (leftmost, non-overlapping). -/
def splitBlocks : List Char → List (List Char)
  | '\n' :: '\n' :: rest => [] :: splitBlocks rest
  | c :: rest => consHead c (splitBlocks rest)
  | [] => [[]]

/-- Python's `s.split(' --> ')` (leftmost, non-overlapping). -/
def splitArrow : List Char → List (List Char)
  | ' ' :: '-' :: '-' :: '>' :: ' ' :: rest => [] :: splitArrow rest
  | c :: rest => consHead c (splitArrow rest)
  | [] => [[]]

/-- Python's `'-->' in line`. -/
def containsArrow : List Char → Bool
  | '-' :: '-' :: '>' :: _ => true
  | _ :: rest => containsArrow rest
  | [] => false

/-- Python's `sep.join(pieces)`. -/
def joinSep (sep : List Char) : List (List Char) → List Char
  | [] => []
  | [x] => x
  | x :: xs => x ++ sep ++ joinSep sep xs

/-- Loop body of `offset_subtitle` (src/video-merger.py:55-68): a line is
rewritten when it contains `-->` and splits on `' --> '` into exactly two
parts; otherwise it is appended unchanged. -/
def offsetLine (offset : ℚ) (line : List Char) : List Char :=
  if containsArrow line then
    let parts := splitArrow line
    if parts.length = 2 then
      let start := parse_srt_time (parts.getD 0 [])
      let e := parse_srt_time (parts.getD 1 [])
      format_srt_time (start + offset) ++ " --> ".data ++ format_srt_time (e + offset)
    else line
  else line

/-- Embedding of `offset_subtitle` (src/video-merger.py:50-70):
strip, split into lines, rewrite each line, and rejoin. -/
def offset_subtitle (content : List Char) (offset : ℚ) : List Char :=
  joinSep ['\n'] ((splitLines (stripL content)).map (offsetLine offset))

/-- Renumbering of one block (src/video-merger.py:113-117): replace the
first line by the counter and rejoin the block's lines. -/
def renumber_block (counter : ℕ) (block : List Char) : List Char :=
  joinSep ['\n'] (natToChars counter :: (splitLines block).tail)

/-- Renumber a run of blocks with consecutive counters. -/
def renumberFrom (counter : ℕ) : List (List Char) → List (List Char)
  | [] => []
  | b :: bs => renumber_block counter b :: renumberFrom (counter + 1) bs

/-- Block decomposition of a subtitle file
(src/video-merger.py:111: `content.strip().split('\n\n')`). -/
def blocksOf (content : List Char) : List (List Char) :=
  splitBlocks (stripL content)

/-- First line of a block of text. -/
def firstLineOf (b : List Char) : List Char :=
  (splitLines b).headI

/-- All lines of a block after the first: the block's payload, which
renumbering must leave untouched. -/
def restLinesOf (b : List Char) : List (List Char) :=
  (splitLines b).tail

/-- The loop of `concatenate_subtitles` (src/video-merger.py:101-123) over
the zipped subtitle/video pairs.  Each subtitle file is given by its
content; each video file by its externally probed duration (the
`get_video_duration` call is an external probe and enters the model as
this datum).  State: segment index `i`, accumulated `current_offset`,
block counter, and the length of the full video list (used by the guard
`i < len(video_parts) - 1`, modelled as `i + 1 < nvids`). -/
def concatSegments : List (List Char × ℚ) → ℕ → ℚ → ℕ → ℕ → List (List Char)
  | [], _, _, _, _ => []
  | (content, dur) :: rest, i, offset, counter, nvids =>
    let c := if 0 < i then offset_subtitle content offset else content
    let blocks := blocksOf c
    renumberFrom counter blocks ++
      concatSegments rest (i + 1) (if i + 1 < nvids then offset + dur else offset)
        (counter + blocks.length) nvids

/-- The merged block list produced by `concatenate_subtitles`
(src/video-merger.py:95-123): loop from index 0, offset 0, counter 1. -/
def combinedBlocks (subs : List (List Char)) (vids : List ℚ) : List (List Char) :=
  concatSegments (subs.zip vids) 0 0 1 vids.length

/-- The blocks contributed by the segments, in segment order with
intra-segment order preserved, before renumbering: the same loop as
`concatSegments` (same offset accumulator and probe guard) with the
renumbering left out, so that the merge can be stated as renumbering
this list in place. -/
def segmentBlocks : List (List Char × ℚ) → ℕ → ℚ → ℕ → List (List Char)
  | [], _, _, _ => []
  | (content, dur) :: rest, i, offset, nvids =>
    let c := if 0 < i then offset_subtitle content offset else content
    blocksOf c ++
      segmentBlocks rest (i + 1) (if i + 1 < nvids then offset + dur else offset) nvids

/-- Embedding of `concatenate_subtitles` (src/video-merger.py:95-129): the
text written to the output file, `'\n\n'.join(combined_srt) + '\n'`. -/
def concatenate_subtitles (subs : List (List Char)) (vids : List ℚ) : List Char :=
  joinSep ['\n', '\n'] (combinedBlocks subs vids) ++ ['\n']

/-- Cumulative duration of the segments before segment `i`. -/
def cumOffset (vids : List ℚ) (i : ℕ) : ℚ := ((vids.take i).sum : ℚ)

/-- Modelled from the spec: the offset engine description of §4.3 — segment
`0` is never shifted, and every segment `i > 0` is shifted by the sum of the
externally reported durations of segments `0..i-1` (no running
accumulator). -/
def specSegments (vids : List ℚ) : List (List Char × ℚ) → ℕ → ℕ → List (List Char)
  | [], _, _ => []
  | (content, _) :: rest, i, counter =>
    let c := if 0 < i then offset_subtitle content (cumOffset vids i) else content
    let blocks := blocksOf c
    renumberFrom counter blocks ++ specSegments vids rest (i + 1) (counter + blocks.length)

/-- Modelled from the spec: a line containing a well-formed
`start --> end` range in `HH:MM:SS,mmm` format, i.e. splitting on
`' --> '` gives exactly two parts and each part starts with a timestamp
match. -/
def specWellFormedTimingLine (line : List Char) : Bool :=
  match splitArrow line with
  | [a, b] => (matchTimestamp a).isSome && (matchTimestamp b).isSome
  | _ => false

/-- POSIX `os.path.join` for the simple shapes used by `main`. -/
def pathJoin (dir file : List Char) : List Char :=
  if dir.isEmpty then file
  else if dir.getLast? = some '/' then dir ++ file
  else dir ++ '/' :: file

/-- Observable outcome of a run of `main`: the process exit code, the
output files written, and the error message printed, if any. -/
structure MainResult where
  exitCode : ℕ
  outputFiles : List (List Char)
  errorMessage : Option (List Char)
  deriving DecidableEq

/-- Effect summary of `main` (src/video-merger.py:131-169) after argument
parsing, with the glob results (`find_video_parts`, `find_subtitle_parts`)
passed in: with no video parts it prints the error and exits with code 1
before any output is produced; otherwise it writes `{id}.mp4` and, when
subtitle parts exist, `{id}.srt`. -/
def mainRun (video_number dir : List Char)
    (video_parts subtitle_parts : List (List Char)) : MainResult :=
  if video_parts.isEmpty then
    ⟨1, [], some ("Error: No video parts found for ".data ++ video_number)⟩
  else
    ⟨0,
      pathJoin dir (video_number ++ ".mp4".data) ::
        (if subtitle_parts.isEmpty then [] else [pathJoin dir (video_number ++ ".srt".data)]),
      none⟩

/-! ## Decimal digit machinery -/

theorem charVal_digitChar (d : ℕ) (hd : d < 10) : charVal (digitChar d) = d := by
  interval_cases d <;> decide

theorem isDigit_digitChar (d : ℕ) (hd : d < 10) : (digitChar d).isDigit = true := by
  interval_cases d <;> decide

theorem natToCharsCore_append (fuel : ℕ) :
    ∀ (n : ℕ) (acc : List Char),
      natToCharsCore fuel n acc = natToCharsCore fuel n [] ++ acc := by
  induction fuel with
  | zero => intro n acc; simp [natToCharsCore]
  | succ f ih =>
      intro n acc
      by_cases hn : n = 0
      · simp [natToCharsCore, hn]
      · simp only [natToCharsCore, if_neg hn]
        rw [ih (n / 10) (digitChar (n % 10) :: acc), ih (n / 10) [digitChar (n % 10)]]
        simp

theorem natToCharsCore_fuel (f1 : ℕ) :
    ∀ (f2 n : ℕ), n ≤ f1 → n ≤ f2 →
      natToCharsCore f1 n [] = natToCharsCore f2 n [] := by
  induction f1 with
  | zero =>
      intro f2 n h1 h2
      interval_cases n
      cases f2 <;> simp [natToCharsCore]
  | succ f ih =>
      intro f2 n h1 h2
      by_cases hn : n = 0
      · subst hn; cases f2 <;> simp [natToCharsCore]
      · obtain ⟨g, rfl⟩ : ∃ g, f2 = g + 1 := ⟨f2 - 1, by omega⟩
        simp only [natToCharsCore, if_neg hn]
        rw [natToCharsCore_append f, natToCharsCore_append g]
        have hlt : n / 10 < n := Nat.div_lt_self (Nat.pos_of_ne_zero hn) (by norm_num)
        rw [ih g (n / 10) (by omega) (by omega)]

theorem foldl_val_shift (l : List Char) :
    ∀ v : ℕ, l.foldl (fun a c => a * 10 + charVal c) v = v * 10 ^ l.length + valOfChars l := by
  induction l with
  | nil => intro v; simp [valOfChars]
  | cons c t ih =>
      intro v
      have hval : valOfChars (c :: t) = charVal c * 10 ^ t.length + valOfChars t := by
        have h1 : valOfChars (c :: t) =
            List.foldl (fun a c => a * 10 + charVal c) (0 * 10 + charVal c) t := rfl
        rw [h1, ih (0 * 10 + charVal c)]
        ring
      have h2 : List.foldl (fun a c => a * 10 + charVal c) v (c :: t) =
          List.foldl (fun a c => a * 10 + charVal c) (v * 10 + charVal c) t := rfl
      rw [h2, ih (v * 10 + charVal c), hval, List.length_cons]
      ring

theorem valOfChars_append (l1 l2 : List Char) :
    valOfChars (l1 ++ l2) = valOfChars l1 * 10 ^ l2.length + valOfChars l2 := by
  simp only [valOfChars, List.foldl_append]
  rw [foldl_val_shift]
  rfl

theorem natToCharsCore_spec (n : ℕ) :
    (∀ c ∈ natToCharsCore n n [], c.isDigit = true) ∧
      valOfChars (natToCharsCore n n []) = n := by
  induction n using Nat.strong_induction_on with
  | _ n ih =>
      match n with
      | 0 => simp [natToCharsCore, valOfChars]
      | m + 1 =>
          have hne : m + 1 ≠ 0 := Nat.succ_ne_zero m
          have hq : (m + 1) / 10 < m + 1 := Nat.div_lt_self (Nat.succ_pos m) (by norm_num)
          have step : natToCharsCore (m + 1) (m + 1) [] =
              natToCharsCore ((m + 1) / 10) ((m + 1) / 10) [] ++ [digitChar ((m + 1) % 10)] := by
            simp only [natToCharsCore, if_neg hne]
            rw [natToCharsCore_append m]
            rw [natToCharsCore_fuel m ((m + 1) / 10) ((m + 1) / 10) (by omega) le_rfl]
          obtain ⟨ihd, ihv⟩ := ih ((m + 1) / 10) hq
          constructor
          · intro c hc
            rw [step] at hc
            rcases List.mem_append.mp hc with h | h
            · exact ihd c h
            · have : c = digitChar ((m + 1) % 10) := by simpa using h
              rw [this]
              exact isDigit_digitChar _ (Nat.mod_lt _ (by norm_num))
          · rw [step, valOfChars_append, ihv]
            have hms : valOfChars [digitChar ((m + 1) % 10)] = (m + 1) % 10 := by
              simp only [valOfChars, List.foldl_cons, List.foldl_nil]
              have := charVal_digitChar ((m + 1) % 10) (Nat.mod_lt _ (by norm_num))
              omega
            rw [hms]
            simp only [List.length_singleton, pow_one]
            omega

theorem natToChars_digits (n : ℕ) : ∀ c ∈ natToChars n, c.isDigit = true := by
  intro c hc
  by_cases hn : n = 0
  · subst hn
    simp [natToChars] at hc
    rw [hc]; decide
  · rw [natToChars, if_neg hn] at hc
    exact (natToCharsCore_spec n).1 c hc

theorem valOfChars_natToChars (n : ℕ) : valOfChars (natToChars n) = n := by
  by_cases hn : n = 0
  · subst hn; decide
  · rw [natToChars, if_neg hn]
    exact (natToCharsCore_spec n).2

theorem natToChars_ne_nil (n : ℕ) : natToChars n ≠ [] := by
  by_cases hn : n = 0
  · subst hn; decide
  · rw [natToChars, if_neg hn]
    intro h
    have hv := (natToCharsCore_spec n).2
    rw [h] at hv
    simp [valOfChars] at hv
    omega

theorem valOfChars_replicate_zero (k : ℕ) : valOfChars (List.replicate k '0') = 0 := by
  induction k with
  | zero => simp [valOfChars]
  | succ k ih =>
      have h0 : 0 * 10 + charVal '0' = 0 := by decide
      simp only [List.replicate_succ, valOfChars, List.foldl_cons, h0] at ih ⊢
      exact ih

theorem valOfChars_padNat (n w : ℕ) : valOfChars (padNat n w) = n := by
  rw [padNat, valOfChars_append, valOfChars_replicate_zero, valOfChars_natToChars]
  simp

theorem padNat_digits (n w : ℕ) : ∀ c ∈ padNat n w, c.isDigit = true := by
  intro c hc
  rw [padNat] at hc
  rcases List.mem_append.mp hc with h | h
  · rw [List.eq_of_mem_replicate h]; decide
  · exact natToChars_digits n c h

theorem padNat_ne_nil (n w : ℕ) : padNat n w ≠ [] := by
  rw [padNat]
  intro h
  exact natToChars_ne_nil n (List.append_eq_nil.mp h).2

/-! ## Timestamp scanning -/

theorem takeWhile_all_append (p : Char → Bool) (l r : List Char) (h : ∀ c ∈ l, p c = true) :
    (l ++ r).takeWhile p = l ++ r.takeWhile p := by
  induction l with
  | nil => simp
  | cons c t ih =>
      have hc : p c = true := h c (List.mem_cons_self c t)
      simp only [List.cons_append, List.takeWhile_cons, hc, if_true]
      rw [ih (fun x hx => h x (List.mem_cons_of_mem c hx))]

theorem dropWhile_all_append (p : Char → Bool) (l r : List Char) (h : ∀ c ∈ l, p c = true) :
    (l ++ r).dropWhile p = r.dropWhile p := by
  induction l with
  | nil => simp
  | cons c t ih =>
      have hc : p c = true := h c (List.mem_cons_self c t)
      simp only [List.cons_append, List.dropWhile_cons, hc, if_true]
      exact ih (fun x hx => h x (List.mem_cons_of_mem c hx))

theorem takeWhile_head_false (p : Char → Bool) (r : List Char)
    (h : ∀ c, r.head? = some c → p c = false) : r.takeWhile p = [] := by
  cases r with
  | nil => rfl
  | cons c t => simp [List.takeWhile_cons, h c rfl]

theorem dropWhile_head_false (p : Char → Bool) (r : List Char)
    (h : ∀ c, r.head? = some c → p c = false) : r.dropWhile p = r := by
  cases r with
  | nil => rfl
  | cons c t => simp [List.dropWhile_cons, h c rfl]

theorem takeDigits_eval (L r : List Char) (hne : L ≠ [])
    (hd : ∀ c ∈ L, c.isDigit = true)
    (hr : ∀ c, r.head? = some c → c.isDigit = false) :
    takeDigits (L ++ r) = some (valOfChars L, r) := by
  have ht : (L ++ r).takeWhile Char.isDigit = L := by
    rw [takeWhile_all_append _ _ _ hd, takeWhile_head_false _ _ hr, List.append_nil]
  have hdr : (L ++ r).dropWhile Char.isDigit = r := by
    rw [dropWhile_all_append _ _ _ hd, dropWhile_head_false _ _ hr]
  have hempty : L.isEmpty = false := by
    cases L with
    | nil => exact absurd rfl hne
    | cons a t => rfl
  simp only [takeDigits, ht, hdr, hempty]
  simp

theorem head_cons_not_digit (y : Char) (t : List Char) (hy : y.isDigit = false) :
    ∀ x, (y :: t).head? = some x → x.isDigit = false := by
  intro x hx
  rw [List.head?_cons, Option.some.injEq] at hx
  rw [← hx]; exact hy

theorem head_nil_not_digit : ∀ x, ([] : List Char).head? = some x → x.isDigit = false := by
  intro x hx
  simp at hx

theorem takeDigits_padNat (d w : ℕ) : takeDigits (padNat d w) = some (d, []) := by
  have h := takeDigits_eval (padNat d w) [] (padNat_ne_nil d w) (padNat_digits d w)
    head_nil_not_digit
  rw [List.append_nil] at h
  rw [h, valOfChars_padNat]

theorem matchTimestamp_padded (a b c d : ℕ) (w1 w2 w3 w4 : ℕ) :
    matchTimestamp (padNat a w1 ++ ':' ::
        (padNat b w2 ++ ':' :: (padNat c w3 ++ ',' :: padNat d w4))) =
      some ((a, b, c, d), []) := by
  have h1 := takeDigits_eval (padNat a w1)
    (':' :: (padNat b w2 ++ ':' :: (padNat c w3 ++ ',' :: padNat d w4)))
    (padNat_ne_nil a w1) (padNat_digits a w1) (head_cons_not_digit ':' _ (by decide))
  have h2 := takeDigits_eval (padNat b w2)
    (':' :: (padNat c w3 ++ ',' :: padNat d w4))
    (padNat_ne_nil b w2) (padNat_digits b w2) (head_cons_not_digit ':' _ (by decide))
  have h3 := takeDigits_eval (padNat c w3) (',' :: padNat d w4)
    (padNat_ne_nil c w3) (padNat_digits c w3) (head_cons_not_digit ',' _ (by decide))
  have h4 := takeDigits_padNat d w4
  simp [matchTimestamp, h1, h2, h3, h4, expectChar, valOfChars_padNat]

theorem parse_srt_time_of_match (l : List Char) (h m s ms : ℕ) (rest : List Char)
    (hm : matchTimestamp l = some ((h, m, s, ms), rest)) :
    parse_srt_time l = (h : ℚ) * 3600 + (m : ℚ) * 60 + (s : ℚ) + (ms : ℚ) / 1000 := by
  simp [parse_srt_time, hm]

theorem parse_srt_time_of_none (l : List Char) (hm : matchTimestamp l = none) :
    parse_srt_time l = 0 := by
  simp [parse_srt_time, hm]

theorem parse_srt_time_padded (a b c d : ℕ) (w1 w2 w3 w4 : ℕ) :
    parse_srt_time (padNat a w1 ++ ':' ::
        (padNat b w2 ++ ':' :: (padNat c w3 ++ ',' :: padNat d w4))) =
      (a : ℚ) * 3600 + (b : ℚ) * 60 + (c : ℚ) + (d : ℚ) / 1000 :=
  parse_srt_time_of_match _ a b c d [] (matchTimestamp_padded a b c d w1 w2 w3 w4)

/-! ## Formatter evaluation -/

theorem padInt_natCast (k : ℕ) (w : ℕ) : padInt (k : ℤ) w = padNat k w := by
  rw [padInt, if_neg (by simp : ¬((k : ℤ) < 0))]
  simp

theorem format_srt_time_eval (q : ℚ) (a b : ℕ) (hq : q = (a : ℚ) + (b : ℚ) / 1000)
    (hb : b < 1000) :
    format_srt_time q =
      padNat (a / 3600) 2 ++ ':' ::
        (padNat (a % 3600 / 60) 2 ++ ':' :: (padNat (a % 60) 2 ++ ',' :: padNat b 3)) := by
  have hfrac0 : (0 : ℚ) ≤ (b : ℚ) / 1000 := by positivity
  have hfrac1 : (b : ℚ) / 1000 < 1 := by
    rw [div_lt_one (by norm_num : (0 : ℚ) < 1000)]
    exact_mod_cast hb
  have hfloor : ⌊q⌋ = (a : ℤ) := by
    rw [hq, add_comm ((a : ℚ)) _, Int.floor_add_nat,
      Int.floor_eq_zero_iff.mpr ⟨hfrac0, hfrac1⟩, zero_add]
  have h0q : (0 : ℚ) ≤ q := by rw [hq]; positivity
  have hpyint : pyInt q = (a : ℤ) := by rw [pyInt, if_pos h0q, hfloor]
  have hmod : pyMod1 q * 1000 = (b : ℚ) := by
    rw [pyMod1, hfloor, hq]
    push_cast
    ring
  have hmsint : pyInt (pyMod1 q * 1000) = (b : ℤ) := by
    rw [hmod, pyInt, if_pos (by positivity : (0 : ℚ) ≤ (b : ℚ))]
    exact Int.floor_natCast b
  have c1 : ((a / 3600 : ℕ) : ℤ) = (a : ℤ) / 3600 := by omega
  have c2 : ((a % 3600 / 60 : ℕ) : ℤ) = (a : ℤ) % 3600 / 60 := by omega
  have c3 : ((a % 60 : ℕ) : ℤ) = (a : ℤ) % 60 := by omega
  simp only [format_srt_time, hpyint, hmsint, ← c1, ← c2, ← c3, padInt_natCast]
  simp [List.append_assoc]

theorem parse_format_rep (q : ℚ) (a b : ℕ) (hq : q = (a : ℚ) + (b : ℚ) / 1000)
    (hb : b < 1000) : parse_srt_time (format_srt_time q) = q := by
  rw [format_srt_time_eval q a b hq hb, parse_srt_time_padded, hq]
  have key : a / 3600 * 3600 + a % 3600 / 60 * 60 + a % 60 = a := by omega
  have key2 : ((a / 3600 * 3600 + a % 3600 / 60 * 60 + a % 60 : ℕ) : ℚ) = (a : ℚ) := by
    rw [key]
  push_cast at key2
  linarith [key2]

/-! ## Lines and joining -/

theorem consHead_ne_nil (c : Char) (l : List (List Char)) : consHead c l ≠ [] := by
  cases l <;> simp [consHead]

theorem splitLines_ne_nil (l : List Char) : splitLines l ≠ [] := by
  induction l with
  | nil => simp [splitLines]
  | cons c t ih =>
      simp only [splitLines]
      by_cases hc : c = '\n'
      · simp [hc]
      · rw [if_neg hc]
        exact consHead_ne_nil c _

theorem splitLines_no_nl (x : List Char) (h : '\n' ∉ x) : splitLines x = [x] := by
  induction x with
  | nil => rfl
  | cons c t ih =>
      have hc : c ≠ '\n' := fun hc => h (hc ▸ List.mem_cons_self c t)
      simp only [splitLines, if_neg hc]
      rw [ih (fun ht => h (List.mem_cons_of_mem c ht))]
      rfl

theorem splitLines_append_nl (x t : List Char) (h : '\n' ∉ x) :
    splitLines (x ++ '\n' :: t) = x :: splitLines t := by
  induction x with
  | nil => simp [splitLines]
  | cons c x' ih =>
      have hc : c ≠ '\n' := fun hc => h (hc ▸ List.mem_cons_self c x')
      simp only [List.cons_append, splitLines, if_neg hc, List.append_eq]
      rw [ih (fun ht => h (List.mem_cons_of_mem c ht))]
      rfl

theorem splitLines_joinSep (l : List (List Char)) (hne : l ≠ [])
    (h : ∀ x ∈ l, '\n' ∉ x) :
    splitLines (joinSep ['\n'] l) = l := by
  induction l with
  | nil => exact absurd rfl hne
  | cons x xs ih =>
      cases xs with
      | nil =>
          simp only [joinSep]
          exact splitLines_no_nl x (h x (List.mem_cons_self x []))
      | cons y ys =>
          have hj : joinSep ['\n'] (x :: y :: ys) = x ++ '\n' :: joinSep ['\n'] (y :: ys) := by
            simp [joinSep]
          rw [hj, splitLines_append_nl x _ (h x (List.mem_cons_self x _)),
            ih (by simp) (fun z hz => h z (List.mem_cons_of_mem x hz))]

theorem splitLines_elem_no_nl (l : List Char) : ∀ x ∈ splitLines l, '\n' ∉ x := by
  induction l with
  | nil =>
      intro x hx
      simp [splitLines] at hx
      subst hx
      simp
  | cons c t ih =>
      intro x hx
      by_cases hc : c = '\n'
      · simp only [splitLines, if_pos hc] at hx
        rcases List.mem_cons.mp hx with h1 | h2
        · subst h1; simp
        · exact ih x h2
      · simp only [splitLines, if_neg hc] at hx
        cases hsp : splitLines t with
        | nil => exact absurd hsp (splitLines_ne_nil t)
        | cons r rs =>
            rw [hsp] at hx
            simp only [consHead] at hx
            have hrmem : r ∈ splitLines t := by rw [hsp]; exact List.mem_cons_self r rs
            rcases List.mem_cons.mp hx with h1 | h2
            · subst h1
              intro hmem
              rcases List.mem_cons.mp hmem with h3 | h4
              · exact hc h3.symm
              · exact ih r hrmem h4
            · exact ih x (by rw [hsp]; exact List.mem_cons_of_mem r h2)

theorem headI_joinSep_cons (x : List Char) (rest : List (List Char)) (h : '\n' ∉ x) :
    firstLineOf (joinSep ['\n'] (x :: rest)) = x := by
  cases rest with
  | nil =>
      simp only [joinSep]
      rw [firstLineOf, splitLines_no_nl x h]
      rfl
  | cons y ys =>
      have hj : joinSep ['\n'] (x :: y :: ys) = x ++ '\n' :: joinSep ['\n'] (y :: ys) := by
        simp [joinSep]
      rw [firstLineOf, hj, splitLines_append_nl x _ h]
      rfl

/-! ## Newline-freeness of rewritten lines -/

theorem isDigit_ne_nl (c : Char) (h : c.isDigit = true) : c ≠ '\n' := by
  intro hc
  subst hc
  exact absurd h (by decide)

theorem padNat_no_nl (n w : ℕ) : '\n' ∉ padNat n w := by
  intro h
  exact isDigit_ne_nl '\n' (padNat_digits n w '\n' h) rfl

theorem padInt_no_nl (z : ℤ) (w : ℕ) : '\n' ∉ padInt z w := by
  rw [padInt]
  by_cases hz : z < 0
  · rw [if_pos hz]
    intro h
    rcases List.mem_cons.mp h with h1 | h2
    · exact absurd h1 (by decide)
    · exact padNat_no_nl _ _ h2
  · rw [if_neg hz]
    exact padNat_no_nl _ _

theorem nl_ne_colon : ('\n' : Char) ≠ ':' := by decide

theorem nl_ne_comma : ('\n' : Char) ≠ ',' := by decide

theorem format_no_nl (q : ℚ) : '\n' ∉ format_srt_time q := by
  simp only [format_srt_time]
  simp [List.mem_append, List.mem_cons, padInt_no_nl, nl_ne_colon, nl_ne_comma]

theorem offsetLine_no_nl (offset : ℚ) (line : List Char) (h : '\n' ∉ line) :
    '\n' ∉ offsetLine offset line := by
  simp only [offsetLine]
  split_ifs with h1 h2
  · intro hm
    simp only [List.mem_append] at hm
    rcases hm with (hm | hm) | hm
    · exact format_no_nl _ hm
    · exact absurd hm (by decide)
    · exact format_no_nl _ hm
  · exact h
  · exact h

theorem offset_subtitle_lines (content : List Char) (offset : ℚ) :
    splitLines (offset_subtitle content offset) =
      (splitLines (stripL content)).map (offsetLine offset) := by
  unfold offset_subtitle
  apply splitLines_joinSep
  · intro hmap
    exact splitLines_ne_nil _ (List.map_eq_nil_iff.mp hmap)
  · intro x hx
    rcases List.mem_map.mp hx with ⟨y, hy, rfl⟩
    exact offsetLine_no_nl offset y (splitLines_elem_no_nl _ y hy)

/-! ## Renumbering -/

theorem natToChars_no_nl (n : ℕ) : '\n' ∉ natToChars n := by
  intro h
  exact isDigit_ne_nl '\n' (natToChars_digits n '\n' h) rfl

theorem firstLineOf_renumber (c : ℕ) (b : List Char) :
    firstLineOf (renumber_block c b) = natToChars c := by
  unfold renumber_block
  exact headI_joinSep_cons _ _ (natToChars_no_nl c)

theorem renumberFrom_length (c : ℕ) (bs : List (List Char)) :
    (renumberFrom c bs).length = bs.length := by
  induction bs generalizing c with
  | nil => rfl
  | cons b bs ih => simp [renumberFrom, ih]

theorem renumberFrom_firstLines (c : ℕ) (bs : List (List Char)) :
    (renumberFrom c bs).map firstLineOf = (List.range' c bs.length).map natToChars := by
  induction bs generalizing c with
  | nil => rfl
  | cons b bs ih =>
      simp only [renumberFrom, List.map_cons, List.length_cons, List.range'_succ]
      rw [firstLineOf_renumber, ih (c + 1)]

theorem range'_split (s m n : ℕ) :
    List.range' s (m + n) = List.range' s m ++ List.range' (s + m) n := by
  induction m generalizing s with
  | zero => simp
  | succ m ih =>
      have h1 : m + 1 + n = (m + n) + 1 := by omega
      rw [h1, List.range'_succ, List.range'_succ, ih (s + 1), List.cons_append]
      have h2 : s + 1 + m = s + (m + 1) := by omega
      rw [h2]

theorem concatSegments_firstLines (ps : List (List Char × ℚ)) :
    ∀ (i : ℕ) (off : ℚ) (c nv : ℕ),
      (concatSegments ps i off c nv).map firstLineOf =
        (List.range' c (concatSegments ps i off c nv).length).map natToChars := by
  induction ps with
  | nil => intro i off c nv; rfl
  | cons p rest ih =>
      intro i off c nv
      obtain ⟨content, dur⟩ := p
      simp only [concatSegments]
      rw [List.map_append, renumberFrom_firstLines, ih, List.length_append,
        renumberFrom_length, range'_split, List.map_append]

theorem renumberFrom_append (c : ℕ) (bs1 bs2 : List (List Char)) :
    renumberFrom c (bs1 ++ bs2) =
      renumberFrom c bs1 ++ renumberFrom (c + bs1.length) bs2 := by
  induction bs1 generalizing c with
  | nil => simp [renumberFrom]
  | cons b bs ih =>
      simp only [List.cons_append, List.append_eq, renumberFrom, List.length_cons]
      rw [ih (c + 1), show c + 1 + bs.length = c + (bs.length + 1) from by omega]

theorem concatSegments_eq_renumber (ps : List (List Char × ℚ)) :
    ∀ (i : ℕ) (off : ℚ) (c nv : ℕ),
      concatSegments ps i off c nv = renumberFrom c (segmentBlocks ps i off nv) := by
  induction ps with
  | nil => intro i off c nv; rfl
  | cons p rest ih =>
      intro i off c nv
      obtain ⟨content, dur⟩ := p
      simp only [concatSegments, segmentBlocks]
      rw [renumberFrom_append, ih]

theorem renumber_block_restLines (c : ℕ) (b : List Char) :
    restLinesOf (renumber_block c b) = restLinesOf b := by
  unfold restLinesOf renumber_block
  rw [splitLines_joinSep (natToChars c :: (splitLines b).tail) (by simp)
    (by
      intro x hx
      rcases List.mem_cons.mp hx with h | h
      · rw [h]; exact natToChars_no_nl c
      · exact splitLines_elem_no_nl b x (List.mem_of_mem_tail h))]
  rfl

theorem renumberFrom_restLines (c : ℕ) (bs : List (List Char)) :
    (renumberFrom c bs).map restLinesOf = bs.map restLinesOf := by
  induction bs generalizing c with
  | nil => rfl
  | cons b bs ih => simp [renumberFrom, renumber_block_restLines, ih]

/-! ## The offset accumulator computes cumulative sums -/

theorem concatSegments_eq_spec (vids : List ℚ) (ss : List (List Char)) :
    ∀ (i counter : ℕ),
      concatSegments (ss.zip (vids.drop i)) i (cumOffset vids i) counter vids.length =
        specSegments vids (ss.zip (vids.drop i)) i counter := by
  induction ss with
  | nil => intro i counter; rfl
  | cons s ss ih =>
      intro i counter
      cases hdrop : vids.drop i with
      | nil => rfl
      | cons d r =>
          have hr : r = vids.drop (i + 1) := by
            have h1 : (vids.drop i).drop 1 = vids.drop (i + 1) := by
              rw [List.drop_drop]
            rw [← h1, hdrop]
            rfl
          have hget : vids[i]? = some d := by
            rw [← List.head?_drop, hdrop]
            rfl
          have htake : vids.take (i + 1) = vids.take i ++ [d] := by
            rw [List.take_succ, hget]
            rfl
          have hsum : cumOffset vids (i + 1) = cumOffset vids i + d := by
            unfold cumOffset
            rw [htake, List.sum_append]
            simp
          simp only [List.zip_cons_cons, concatSegments, specSegments]
          congr 1
          by_cases hg : i + 1 < vids.length
          · rw [if_pos hg, ← hsum, hr]
            exact ih (i + 1) _
          · rw [if_neg hg]
            have hnil : vids.drop (i + 1) = [] := List.drop_eq_nil_of_le (by omega)
            rw [hr, hnil, List.zipWith_nil_right]
            rfl

theorem combinedBlocks_eq_spec (subs : List (List Char)) (vids : List ℚ) :
    combinedBlocks subs vids = specSegments vids (subs.zip vids) 0 1 := by
  have h := concatSegments_eq_spec vids subs 0 1
  simpa [combinedBlocks, cumOffset] using h

/-! ## Zip truncation -/

theorem zip_append_of_le (l2 : List ℚ) :
    ∀ (l1 extra : List (List Char)), l2.length ≤ l1.length →
      (l1 ++ extra).zip l2 = l1.zip l2 := by
  induction l2 with
  | nil => intro l1 extra h; simp [List.zip_nil_right]
  | cons b bs ih =>
      intro l1 extra h
      cases l1 with
      | nil => simp at h
      | cons a as =>
          simp only [List.cons_append, List.zip_cons_cons]
          rw [ih as extra (by simpa using h)]

theorem zip_append_right_of_le (subs : List (List Char)) :
    ∀ (vids extra : List ℚ), subs.length ≤ vids.length →
      subs.zip (vids ++ extra) = subs.zip vids := by
  induction subs with
  | nil => intro vids extra h; rfl
  | cons s ss ih =>
      intro vids extra h
      cases vids with
      | nil => simp at h
      | cons d vs =>
          simp only [List.cons_append, List.zip_cons_cons]
          rw [ih vs extra (by simpa using h)]

theorem concatSegments_nv_eq (ps : List (List Char × ℚ)) :
    ∀ (i : ℕ) (off : ℚ) (c nv1 nv2 : ℕ),
      i + ps.length ≤ nv1 → i + ps.length ≤ nv2 →
        concatSegments ps i off c nv1 = concatSegments ps i off c nv2 := by
  induction ps with
  | nil => intro i off c nv1 nv2 h1 h2; rfl
  | cons p rest ih =>
      intro i off c nv1 nv2 h1 h2
      obtain ⟨content, dur⟩ := p
      simp only [concatSegments]
      congr 1
      cases rest with
      | nil => rfl
      | cons q rest' =>
          simp only [List.length_cons] at h1 h2
          rw [if_pos (show i + 1 < nv1 from by omega),
            if_pos (show i + 1 < nv2 from by omega)]
          exact ih (i + 1) _ _ nv1 nv2 (by simp; omega) (by simp; omega)

/-! ## Evaluation of rewritten lines -/

theorem offsetLine_rewrite (offset : ℚ) (line p1 p2 : List Char)
    (hc : containsArrow line = true) (hs : splitArrow line = [p1, p2]) :
    offsetLine offset line =
      format_srt_time (parse_srt_time p1 + offset) ++ " --> ".data ++
        format_srt_time (parse_srt_time p2 + offset) := by
  simp only [offsetLine, hc, hs, if_true]
  simp [List.getD]

/-! ## Claims -/

/-- C1: the merge applies a cumulative offset to each segment: the
accumulator loop of `concatenate_subtitles` coincides with the
specification rendering in which segment 0 is never shifted and segment
`i > 0` is shifted by the sum of the externally reported durations of
segments `0..i-1`; moreover, for durations `[10.0, 20.0, 15.0]` the
cumulative offsets of segments 0, 1, 2 are `0`, `10.0`, `30.0`. -/
theorem c1_cumulative_offsets :
    (∀ (subs : List (List Char)) (vids : List ℚ),
        combinedBlocks subs vids = specSegments vids (subs.zip vids) 0 1) ∧
      cumOffset [10, 20, 15] 0 = 0 ∧ cumOffset [10, 20, 15] 1 = 10 ∧
        cumOffset [10, 20, 15] 2 = 30 := by
  refine ⟨combinedBlocks_eq_spec, ?_, ?_, ?_⟩ <;> norm_num [cumOffset]

/-- C2: the merged output renumbers blocks with a strictly increasing
counter starting at 1, discarding original numbers and preserving the
blocks' original relative order.  Conjunct 1: the merged block list is
exactly `renumberFrom 1` of the segments' blocks taken in original order.
Conjunct 2: `renumberFrom` writes the consecutive numerals as first lines
and leaves every block's payload (`restLinesOf`) unchanged, in order.
Conjunct 3: hence the merged first lines are the numerals `1..N`.
Conjunct 4: merging inputs whose blocks are numbered `[1, 2]` and
`[1, 2, 3]` yields the full merged output with blocks numbered
`[1, 2, 3, 4, 5]` and all payloads in their original relative order. -/
theorem c2_renumbering :
    (∀ (subs : List (List Char)) (vids : List ℚ),
        combinedBlocks subs vids =
          renumberFrom 1 (segmentBlocks (subs.zip vids) 0 0 vids.length)) ∧
      (∀ (counter : ℕ) (bs : List (List Char)),
          (renumberFrom counter bs).map firstLineOf =
            (List.range' counter bs.length).map natToChars ∧
          (renumberFrom counter bs).map restLinesOf = bs.map restLinesOf) ∧
      (∀ (subs : List (List Char)) (vids : List ℚ),
          (combinedBlocks subs vids).map firstLineOf =
            (List.range' 1 (combinedBlocks subs vids).length).map natToChars) ∧
      concatenate_subtitles ["1\nhello\n\n2\nworld".data, "1\naa\n\n2\nbb\n\n3\ncc".data]
          [(10 : ℚ), 20] =
        "1\nhello\n\n2\nworld\n\n3\naa\n\n4\nbb\n\n5\ncc\n".data := by
  refine ⟨?_, ?_, ?_, ?_⟩
  · intro subs vids
    exact concatSegments_eq_renumber _ 0 0 1 vids.length
  · intro counter bs
    exact ⟨renumberFrom_firstLines counter bs, renumberFrom_restLines counter bs⟩
  · intro subs vids
    exact concatSegments_firstLines _ 0 0 1 vids.length
  · decide

/-- C3: round trip — for every non-negative duration representable to
millisecond precision (every `d = n / 1000` with `n : ℕ`), parsing the
formatted string gives back exactly that duration. -/
theorem c3_round_trip (n : ℕ) :
    parse_srt_time (format_srt_time ((n : ℚ) / 1000)) = (n : ℚ) / 1000 := by
  apply parse_format_rep _ (n / 1000) (n % 1000) _ (by omega)
  have hsplit : n = n / 1000 * 1000 + n % 1000 := by omega
  have hcast : ((n : ℚ)) = ((n / 1000 : ℕ) : ℚ) * 1000 + ((n % 1000 : ℕ) : ℚ) := by
    exact_mod_cast congrArg (Nat.cast : ℕ → ℚ) hsplit
  rw [hcast]
  field_simp

/-- C4: the formatter produces zero-padded `HH:MM:SS,mmm` output,
truncating integer seconds and deriving milliseconds from the fractional
remainder: `format_srt_time 5.001 = "00:00:05,001"` and
`format_srt_time 3725.5 = "01:02:05,500"`. -/
theorem c4_format_examples :
    format_srt_time (5.001 : ℚ) = "00:00:05,001".data ∧
      format_srt_time (3725.5 : ℚ) = "01:02:05,500".data := by
  constructor
  · rw [format_srt_time_eval (5.001 : ℚ) 5 1 (by norm_num) (by norm_num)]
    decide
  · rw [format_srt_time_eval (3725.5 : ℚ) 3725 500 (by norm_num) (by norm_num)]
    decide

/-- C5 counterexample: the line `"a --> b"` does not contain a well-formed
`HH:MM:SS,mmm` range, yet `offset_subtitle` does not pass it through
unchanged — it is rewritten to `"00:00:01,000 --> 00:00:01,000"` at offset
1, refuting the claim that every malformed timing line is passed through
unchanged. -/
theorem c5_counterexample :
    specWellFormedTimingLine "a --> b".data = false ∧
      offset_subtitle "a --> b".data 1 ≠ "a --> b".data := by
  constructor
  · decide
  · have h1 : parse_srt_time "a".data = 0 := parse_srt_time_of_none _ (by decide)
    have h2 : parse_srt_time "b".data = 0 := parse_srt_time_of_none _ (by decide)
    have hfmt : format_srt_time ((0 : ℚ) + 1) = "00:00:01,000".data := by
      rw [format_srt_time_eval ((0 : ℚ) + 1) 1 0 (by norm_num) (by norm_num)]
      decide
    have hline : offsetLine 1 "a --> b".data = "00:00:01,000 --> 00:00:01,000".data := by
      rw [offsetLine_rewrite 1 "a --> b".data "a".data "b".data (by decide) (by decide),
        h1, h2, hfmt]
      decide
    have hsub : offset_subtitle "a --> b".data 1 =
        "00:00:01,000 --> 00:00:01,000".data := by
      unfold offset_subtitle
      rw [show stripL "a --> b".data = "a --> b".data from by decide,
        show splitLines "a --> b".data = ["a --> b".data] from by decide]
      simp only [List.map_cons, List.map_nil]
      rw [hline]
      rfl
    rw [hsub]
    decide

/-- C5 (amended): a line that does not contain `-->`, or that does not
split on `' --> '` into exactly two parts, is passed through unchanged by
the `offset_subtitle` loop body (and the function is total, so no error is
ever raised); lines that do split into exactly two parts are rewritten
even when their timestamps are malformed. -/
theorem c5_amended (line : List Char) (offset : ℚ)
    (h : containsArrow line = false ∨ (splitArrow line).length ≠ 2) :
    offsetLine offset line = line := by
  simp only [offsetLine]
  rcases h with h | h
  · rw [if_neg (by simp [h])]
  · by_cases hc : containsArrow line = true
    · rw [if_pos hc, if_neg h]
    · rw [if_neg hc]

/-- C5 witness: a plain text line is passed through unchanged. -/
theorem c5_amended_witness : offsetLine 0 "hello".data = "hello".data :=
  c5_amended "hello".data 0 (Or.inl (by decide))

/-- C6 counterexample: the failure result of the parser is the number `0`,
which is not distinguishable from a successfully parsed value — the
non-matching input `"garbage"` and the matching input `"00:00:00,000"`
produce the same result. -/
theorem c6_counterexample :
    matchTimestamp "garbage".data = none ∧
      (matchTimestamp "00:00:00,000".data).isSome = true ∧
      parse_srt_time "garbage".data = parse_srt_time "00:00:00,000".data := by
  refine ⟨by decide, by decide, ?_⟩
  rw [parse_srt_time_of_none _ (by decide),
    parse_srt_time_of_match _ 0 0 0 0 [] (by decide)]
  norm_num

/-- C6 (amended): the parser returns the matched time in total seconds
(`h*3600 + m*60 + s + ms/1000`) when the string matches the pattern, and
returns `0` when it does not match; the failure value `0` is therefore not
distinguishable from a successful parse of time zero. -/
theorem c6_amended :
    (∀ (l : List Char) (h m s ms : ℕ) (rest : List Char),
        matchTimestamp l = some ((h, m, s, ms), rest) →
          parse_srt_time l = (h : ℚ) * 3600 + (m : ℚ) * 60 + (s : ℚ) + (ms : ℚ) / 1000) ∧
      (∀ l : List Char, matchTimestamp l = none → parse_srt_time l = 0) :=
  ⟨parse_srt_time_of_match, parse_srt_time_of_none⟩

/-- C6 witness: the parsed value of a concrete matching timestamp. -/
theorem c6_amended_witness : parse_srt_time "01:02:03,004".data =
    (1 : ℚ) * 3600 + (2 : ℚ) * 60 + (3 : ℚ) + (4 : ℚ) / 1000 :=
  c6_amended.1 "01:02:03,004".data 1 2 3 4 [] (by decide)

/-- C7: mismatched part counts are not validated — the loop iterates over
`zip`, so pairing is truncated to the shorter list in both directions:
subtitle parts beyond the number of video parts are silently dropped
(conjunct 1), and video parts beyond the number of subtitle parts leave
the subtitle output unchanged (conjunct 2); no error is possible in either
case. -/
theorem c7_truncation :
    (∀ (subs extra : List (List Char)) (vids : List ℚ), vids.length ≤ subs.length →
        concatenate_subtitles (subs ++ extra) vids = concatenate_subtitles subs vids) ∧
      (∀ (subs : List (List Char)) (vids extra : List ℚ), subs.length ≤ vids.length →
        concatenate_subtitles subs (vids ++ extra) = concatenate_subtitles subs vids) := by
  constructor
  · intro subs extra vids h
    unfold concatenate_subtitles combinedBlocks
    rw [zip_append_of_le vids subs extra h]
  · intro subs vids extra h
    unfold concatenate_subtitles combinedBlocks
    rw [zip_append_right_of_le subs vids extra h]
    have hz : (subs.zip vids).length ≤ vids.length := by
      rw [List.length_zip]
      omega
    have hnv := concatSegments_nv_eq (subs.zip vids) 0 0 1 (vids ++ extra).length
      vids.length (by rw [List.length_append]; omega) (by omega)
    rw [hnv]

/-- C7 witness: a concrete extra subtitle part is dropped, and a concrete
extra video part leaves the subtitle output unchanged. -/
theorem c7_truncation_witness :
    concatenate_subtitles (["1\nA".data] ++ ["1\nB".data]) [(10 : ℚ)] =
        concatenate_subtitles ["1\nA".data] [(10 : ℚ)] ∧
      concatenate_subtitles ["1\nA".data] ([(10 : ℚ)] ++ [(20 : ℚ)]) =
        concatenate_subtitles ["1\nA".data] [(10 : ℚ)] :=
  ⟨c7_truncation.1 ["1\nA".data] ["1\nB".data] [(10 : ℚ)] (by decide),
    c7_truncation.2 ["1\nA".data] [(10 : ℚ)] [(20 : ℚ)] (by decide)⟩

/-- C8: with no matching media parts, `main` prints the error message,
terminates with exit code 1, and produces no output files. -/
theorem c8_no_media_parts (video_number dir : List Char)
    (subtitle_parts : List (List Char)) :
    mainRun video_number dir [] subtitle_parts =
      ⟨1, [], some ("Error: No video parts found for ".data ++ video_number)⟩ :=
  rfl

/-- C9: `parse_srt_time` is total (a total function of its input, raising
no exception), returns exactly `0` on every input whose head does not
match the `digits:digits:digits,digits` pattern, and that failure value
coincides with the successful parse of `"00:00:00,000"`. -/
theorem c9_parse_total_zero :
    (∀ l : List Char, matchTimestamp l = none → parse_srt_time l = 0) ∧
      parse_srt_time "00:00:00,000".data = 0 ∧
      (matchTimestamp "00:00:00,000".data).isSome = true := by
  refine ⟨parse_srt_time_of_none, ?_, by decide⟩
  rw [parse_srt_time_of_match _ 0 0 0 0 [] (by decide)]
  norm_num

/-- C9 witness: a concrete non-matching input parses to `0`. -/
theorem c9_witness : parse_srt_time "not a timestamp".data = 0 :=
  c9_parse_total_zero.1 "not a timestamp".data (by decide)

/-- C10 counterexample: `"x --> y"` is not a well-formed timing line, yet
`offset_subtitle` rewrites it, refuting the claim that only well-formed
timing lines are rewritten. -/
theorem c10_counterexample :
    specWellFormedTimingLine "x --> y".data = false ∧
      offset_subtitle "x --> y".data 2 ≠ "x --> y".data := by
  constructor
  · decide
  · have h1 : parse_srt_time "x".data = 0 := parse_srt_time_of_none _ (by decide)
    have h2 : parse_srt_time "y".data = 0 := parse_srt_time_of_none _ (by decide)
    have hfmt : format_srt_time ((0 : ℚ) + 2) = "00:00:02,000".data := by
      rw [format_srt_time_eval ((0 : ℚ) + 2) 2 0 (by norm_num) (by norm_num)]
      decide
    have hline : offsetLine 2 "x --> y".data = "00:00:02,000 --> 00:00:02,000".data := by
      rw [offsetLine_rewrite 2 "x --> y".data "x".data "y".data (by decide) (by decide),
        h1, h2, hfmt]
      decide
    have hsub : offset_subtitle "x --> y".data 2 =
        "00:00:02,000 --> 00:00:02,000".data := by
      unfold offset_subtitle
      rw [show stripL "x --> y".data = "x --> y".data from by decide,
        show splitLines "x --> y".data = ["x --> y".data] from by decide]
      simp only [List.map_cons, List.map_nil]
      rw [hline]
      rfl
    rw [hsub]
    decide

/-- C10 (amended): `offset_subtitle` preserves line structure — its output
has exactly one line for each line of the whitespace-stripped input, in the
same order, each line being the image of the corresponding input line under
the per-line rewriting (which rewrites exactly the lines that contain `-->`
and split on `' --> '` into two parts, well-formed or not). -/
theorem c10_amended (content : List Char) (offset : ℚ) :
    splitLines (offset_subtitle content offset) =
      (splitLines (stripL content)).map (offsetLine offset) ∧
      (splitLines (offset_subtitle content offset)).length =
        (splitLines (stripL content)).length := by
  refine ⟨offset_subtitle_lines content offset, ?_⟩
  rw [offset_subtitle_lines content offset, List.length_map]
